import Mathlib

/-!
Verification development for the russet string-tokenising library.

The Rust source is embedded shallowly: Rust `String`s become `List Char`,
`HashMap`s become association lists looked up by first match (`findIn`),
and the immutable `Tokeniser` value type becomes a Lean structure.  All
functions are direct translations of the source in `src/tokeniser.rs`
(the revision with a single optional `escape_leader` and a `char -> char`
escape-pair map, which is the revision present in the repository) and
`src/escape_scheme.rs`.
-/

namespace Russet

/-- Model of `std::char::is_whitespace`: the Unicode White_Space property. -/
def is_whitespace (c : Char) : Bool :=
  let n := c.toNat
  n == 0x09 || n == 0x0A || n == 0x0B || n == 0x0C || n == 0x0D ||
  n == 0x20 || n == 0x85 || n == 0xA0 || n == 0x1680 ||
  (decide (0x2000 ≤ n) && decide (n ≤ 0x200A)) ||
  n == 0x2028 || n == 0x2029 || n == 0x202F || n == 0x205F || n == 0x3000

/-- A quote mode (`tokeniser.rs`): `IgnoreEscapes` is POSIX single-quote
semantics, `ParseEscapes` is POSIX double-quote semantics. -/
inductive QuoteMode where
  | IgnoreEscapes : QuoteMode
  | ParseEscapes : QuoteMode
deriving DecidableEq, Repr

/-- A tokeniser error (`tokeniser.rs`): `into_strings` fails with one of
these when the tokeniser ends in an unfinished state. -/
inductive Error where
  | UnmatchedQuote : Error
  | UnfinishedEscape : Error
deriving DecidableEq, Repr

/-- Association-list model of Rust's `HashMap::find`: the value at the
first binding of the key, if any. -/
def findIn {α : Type} : List (Char × α) → Char → Option α
  | [], _ => none
  | (a, b) :: rest, k => if a = k then some b else findIn rest k

/-- The Tokeniser state (`tokeniser.rs`).  `vec` is the vector of parsed
words, whose last element is the current accumulator; the configuration
fields `quote_pairs`, `escape_pairs`, `escape_leader` are immutable. -/
structure Tokeniser where
  vec : List (List Char)
  in_word : Bool
  quote : Option (Char × QuoteMode)
  escaping : Bool
  quote_pairs : List (Char × (Char × QuoteMode))
  escape_pairs : List (Char × Char)
  escape_leader : Option Char
deriving DecidableEq, Repr

/-- Model of `vec.mut_last().mutate(...)`: apply `f` to the last element
of the list, if there is one. -/
def mutLast (f : List Char → List Char) : List (List Char) → List (List Char)
  | [] => []
  | [s] => [f s]
  | s :: r :: rest => s :: mutLast f (r :: rest)

namespace Tokeniser

/-- Model of `Tokeniser::new`: a blank tokeniser over the given configuration. -/
def new (quote_pairs : List (Char × (Char × QuoteMode)))
    (escape_pairs : List (Char × Char)) (escape_leader : Option Char) :
    Tokeniser :=
  { vec := [[]]
    in_word := false
    quote := none
    escaping := false
    quote_pairs := quote_pairs
    escape_pairs := escape_pairs
    escape_leader := escape_leader }

/-- Model of `Tokeniser::emit`: push `c` onto the current string, set `in_word`,
clear `escaping`. -/
def emit (t : Tokeniser) (c : Char) : Tokeniser :=
  { t with in_word := true, escaping := false,
           vec := mutLast (fun s => s ++ [c]) t.vec }

/-- Model of `Tokeniser::start_escaping`: switch on escape mode and `in_word`. -/
def start_escaping (t : Tokeniser) : Tokeniser :=
  { t with escaping := true, in_word := true }

/-- Does the current quote's mode parse escapes?
(The pattern `quote: Some(( _, ParseEscapes ))`.) -/
def parsesEscapes : Option (Char × QuoteMode) → Bool
  | some (_, QuoteMode.ParseEscapes) => true
  | _ => false

/-- Is `c` the closing character of the current quote?
(The pattern `quote: Some(( cc, _ )) if c == cc`.) -/
def closerIs : Option (Char × QuoteMode) → Char → Bool
  | some (cc, _), c => cc == c
  | none, _ => false

/-- Model of `Tokeniser::add_char`: the transition function, an ordered match whose
arms are translated here as an if-chain in the source's arm order. -/
def add_char (t : Tokeniser) (chr : Char) : Tokeniser :=
  -- ESCAPE SEQUENCES: shell-style escaping (no escapes defined) -> echo
  if t.escaping = true ∧ t.escape_pairs = [] then t.emit chr
  -- known escaped character -> escape character
  else if t.escaping = true ∧ (findIn t.escape_pairs chr).isSome = true then
    t.emit ((findIn t.escape_pairs chr).getD chr)
  -- ESCAPE LEADER, not in quotes -> begin escape
  else if t.escaping = false ∧ t.quote = none ∧ t.escape_leader = some chr then
    t.start_escaping
  -- escape leader, in escape-permitting quotes -> begin escape
  else if t.escaping = false ∧ parsesEscapes t.quote = true ∧
      t.escape_leader = some chr then
    t.start_escaping
  -- QUOTE OPENING: quote opening character, not currently in quoted word
  else if t.escaping = false ∧ t.quote = none ∧
      (findIn t.quote_pairs chr).isSome = true then
    { t with quote := findIn t.quote_pairs chr, in_word := true }
  -- QUOTE CLOSING: quote closing character, in quoted word
  else if t.escaping = false ∧ closerIs t.quote chr = true then
    { t with quote := none, in_word := true }
  -- UNESCAPED WHITESPACE, while not in a word -> ignore
  else if t.escaping = false ∧ t.in_word = false ∧ is_whitespace chr = true then
    t
  -- unescaped whitespace, while in a non-quoted word -> end word
  else if t.escaping = false ∧ t.in_word = true ∧ t.quote = none ∧
      is_whitespace chr = true then
    { t with in_word := false, vec := t.vec ++ [[]] }
  -- DEFAULT: anything else -> echo
  else t.emit chr

/-- Model of `Tokeniser::add_iterator`: fold `add_char` over a character sequence. -/
def add_iterator (t : Tokeniser) (it : List Char) : Tokeniser :=
  it.foldl add_char t

/-- Model of `str::trim`: remove leading and trailing whitespace. -/
def trim (l : List Char) : List Char :=
  ((l.dropWhile is_whitespace).reverse.dropWhile is_whitespace).reverse

/-- Model of `Tokeniser::add_line`: feed the trimmed line into the tokeniser. -/
def add_line (t : Tokeniser) (line : List Char) : Tokeniser :=
  t.add_iterator (trim line)

/-- Model of `Tokeniser::drop_empty_current_string`: pop the working string if it
is empty. -/
def drop_empty_current_string (t : Tokeniser) : Tokeniser :=
  if (t.vec.getLast?.map List.isEmpty).getD false then
    { t with vec := t.vec.dropLast }
  else t

/-- Model of `Tokeniser::into_strings`: destroy the tokeniser, extracting the word
vector, or an error if it ended in a bad state. -/
def into_strings (t : Tokeniser) : Except Error (List (List Char)) :=
  if t.in_word = true ∧ t.quote.isSome = true then .error .UnmatchedQuote
  else if t.escaping = true then .error .UnfinishedEscape
  else .ok t.drop_empty_current_string.vec

end Tokeniser

/-- Model of `whitespace_split_tokeniser` (`lib.rs`): no quoting or escaping. -/
def whitespace_split_tokeniser : Tokeniser :=
  Tokeniser.new [] [] none

/-- Model of `shell_style_tokeniser` (`lib.rs`): `"` quotes parse escapes, `'`
quotes ignore them; `\` is the escape leader with no escape pairs, which
the tokeniser treats as shell-style literal escaping. -/
def shell_style_tokeniser : Tokeniser :=
  Tokeniser.new [('\"', ('\"', QuoteMode.ParseEscapes)),
                 ('\'', ('\'', QuoteMode.IgnoreEscapes))]
                [] (some '\\')

/-- The C-style escape map of `escape_scheme.rs`'s `c_escapes`. -/
def c_escape_pairs : List (Char × Char) :=
  [('n', '\n'), ('r', '\r'), ('\"', '\"'), ('\'', '\''), ('\\', '\\'),
   ('t', '\t')]

/-- Model of `SimpleEscapeScheme` (`escape_scheme.rs`): either every escaped
character stands for itself, or it is looked up in a map. -/
inductive SimpleEscapeScheme (M : Type) where
  | LiteralEscape : SimpleEscapeScheme M
  | MapEscape : M → SimpleEscapeScheme M
deriving DecidableEq, Repr

/-- Model of `SimpleEscapeScheme::escape` (`escape_scheme.rs`): resolve an escaped
character to its substitute, or `none` for an unknown escape. -/
def SimpleEscapeScheme.escape (s : SimpleEscapeScheme (List (Char × Char)))
    (chr : Char) : Option Char :=
  match s with
  | .LiteralEscape => some chr
  | .MapEscape map => findIn map chr

/-- Reference whitespace splitter, written independently of the
tokeniser: `acc` is the partial word read so far; whitespace finishes a
word, every other character extends it. -/
def splitWs : List Char → List Char → List (List Char)
  | acc, [] => if acc.isEmpty then [] else [acc]
  | acc, c :: cs =>
      if is_whitespace c then
        if acc.isEmpty then splitWs [] cs else acc :: splitWs [] cs
      else splitWs (acc ++ [c]) cs

/-- The list of maximal whitespace-free substrings of `l`, in order:
split at every whitespace character and keep the non-empty chunks. -/
def wsWords (l : List Char) : List (List Char) :=
  (l.splitOnP is_whitespace).filter (fun w => !w.isEmpty)

/- ### Basic lemmas about the helper functions -/

lemma mutLast_append_last (f : List Char → List Char)
    (ws : List (List Char)) (acc : List Char) :
    mutLast f (ws ++ [acc]) = ws ++ [f acc] := by
  induction ws with
  | nil => rfl
  | cons w rest ih =>
      cases rest with
      | nil => rfl
      | cons r rest' => simpa [mutLast] using ih

lemma mutLast_length (f : List Char → List Char) (v : List (List Char)) :
    (mutLast f v).length = v.length := by
  induction v with
  | nil => rfl
  | cons w rest ih =>
      cases rest with
      | nil => rfl
      | cons r rest' => simpa [mutLast] using ih

lemma findIn_eq_none_iff {α : Type} (m : List (Char × α)) (k : Char) :
    findIn m k = none ↔ k ∉ m.map Prod.fst := by
  induction m with
  | nil => simp [findIn]
  | cons p rest ih =>
      obtain ⟨a, b⟩ := p
      by_cases h : a = k
      · subst h; simp [findIn]
      · simp [findIn, h, ih, Ne.symm h]

lemma findIn_eq_some_iff_of_nodup {α : Type} (m : List (Char × α))
    (hnd : (m.map Prod.fst).Nodup) (k : Char) (v : α) :
    findIn m k = some v ↔ (k, v) ∈ m := by
  induction m with
  | nil => simp [findIn]
  | cons p rest ih =>
      obtain ⟨a, b⟩ := p
      simp only [List.map_cons, List.nodup_cons] at hnd
      by_cases h : a = k
      · subst h
        rw [findIn, if_pos rfl]
        constructor
        · intro h'
          injection h' with h''
          subst h''
          exact List.mem_cons_self _ _
        · intro h'
          rcases List.mem_cons.mp h' with h'' | h''
          · rw [Prod.mk.injEq] at h''
            exact congrArg some h''.2.symm
          · exact absurd (List.mem_map_of_mem Prod.fst h'') hnd.1
      · rw [findIn, if_neg h]
        rw [ih hnd.2]
        constructor
        · exact fun h' => List.mem_cons_of_mem _ h'
        · intro h'
          rcases List.mem_cons.mp h' with h'' | h''
          · exact absurd (congrArg Prod.fst h'').symm h
          · exact h''

namespace Tokeniser

lemma config_add_char (t : Tokeniser) (c : Char) :
    (t.add_char c).quote_pairs = t.quote_pairs ∧
    (t.add_char c).escape_pairs = t.escape_pairs ∧
    (t.add_char c).escape_leader = t.escape_leader := by
  unfold add_char
  split_ifs <;> simp [emit, start_escaping]

lemma config_add_iterator (t : Tokeniser) (l : List Char) :
    (t.add_iterator l).quote_pairs = t.quote_pairs ∧
    (t.add_iterator l).escape_pairs = t.escape_pairs ∧
    (t.add_iterator l).escape_leader = t.escape_leader := by
  induction l generalizing t with
  | nil => exact ⟨rfl, rfl, rfl⟩
  | cons c cs ih =>
      have h1 := config_add_char t c
      have h2 := ih (t.add_char c)
      simp only [add_iterator, List.foldl_cons] at *
      exact ⟨h2.1.trans h1.1, h2.2.1.trans h1.2.1, h2.2.2.trans h1.2.2⟩

/- Characterisations of `add_char` in specific situations, each proved by
walking the ordered arms of the source `match`. -/

lemma add_char_of_escaping (t : Tokeniser) (c : Char) (h : t.escaping = true) :
    t.add_char c = t.emit ((findIn t.escape_pairs c).getD c) := by
  unfold add_char
  split_ifs with h1 h2 h3 h4 h5 h6 h7 h8
  · rw [h1.2]; rfl
  · rfl
  · exact absurd h3.1 (by simp [h])
  · exact absurd h4.1 (by simp [h])
  · exact absurd h5.1 (by simp [h])
  · exact absurd h6.1 (by simp [h])
  · exact absurd h7.1 (by simp [h])
  · exact absurd h8.1 (by simp [h])
  · have : findIn t.escape_pairs c = none := by
      cases hf : findIn t.escape_pairs c with
      | none => rfl
      | some x => exact absurd ⟨h, by simp [hf]⟩ h2
    rw [this]; rfl

lemma add_char_plain_skip (t : Tokeniser) (c : Char)
    (hesc : t.escaping = false) (hq : t.quote = none) (hw : t.in_word = false)
    (hws : is_whitespace c = true) (hqp : findIn t.quote_pairs c = none)
    (hel : t.escape_leader ≠ some c) :
    t.add_char c = t := by
  unfold add_char
  split_ifs with h1 h2 h3 h4 h5 h6 h7 h8
  · exact absurd h1.1 (by simp [hesc])
  · exact absurd h2.1 (by simp [hesc])
  · exact absurd h3.2.2 hel
  · exact absurd h4.2.2 hel
  · exact absurd h5.2.2 (by simp [hqp])
  · exact absurd h6.2 (by simp [closerIs, hq])
  · rfl
  · exact absurd h8.2.1 (by simp [hw])
  · exact absurd ⟨hesc, hw, hws⟩ h7

lemma add_char_plain_endword (t : Tokeniser) (c : Char)
    (hesc : t.escaping = false) (hq : t.quote = none) (hw : t.in_word = true)
    (hws : is_whitespace c = true) (hqp : findIn t.quote_pairs c = none)
    (hel : t.escape_leader ≠ some c) :
    t.add_char c = { t with in_word := false, vec := t.vec ++ [[]] } := by
  unfold add_char
  split_ifs with h1 h2 h3 h4 h5 h6 h7 h8
  · exact absurd h1.1 (by simp [hesc])
  · exact absurd h2.1 (by simp [hesc])
  · exact absurd h3.2.2 hel
  · exact absurd h4.2.2 hel
  · exact absurd h5.2.2 (by simp [hqp])
  · exact absurd h6.2 (by simp [closerIs, hq])
  · exact absurd h7.2.1 (by simp [hw])
  · rfl
  · exact absurd ⟨hesc, hw, hq, hws⟩ h8

lemma add_char_plain_emit (t : Tokeniser) (c : Char)
    (hesc : t.escaping = false) (hq : t.quote = none)
    (hws : is_whitespace c = false) (hqp : findIn t.quote_pairs c = none)
    (hel : t.escape_leader ≠ some c) :
    t.add_char c = t.emit c := by
  unfold add_char
  split_ifs with h1 h2 h3 h4 h5 h6 h7 h8
  · exact absurd h1.1 (by simp [hesc])
  · exact absurd h2.1 (by simp [hesc])
  · exact absurd h3.2.2 hel
  · exact absurd h4.2.2 hel
  · exact absurd h5.2.2 (by simp [hqp])
  · exact absurd h6.2 (by simp [closerIs, hq])
  · exact absurd h7.2.2 (by simp [hws])
  · exact absurd h8.2.2.2 (by simp [hws])
  · rfl

lemma add_char_quoted_emit (t : Tokeniser) (c : Char) (cc : Char)
    (m : QuoteMode) (hesc : t.escaping = false) (hq : t.quote = some (cc, m))
    (hw : t.in_word = true) (hcc : cc ≠ c) (hel : t.escape_leader ≠ some c) :
    t.add_char c = t.emit c := by
  unfold add_char
  split_ifs with h1 h2 h3 h4 h5 h6 h7 h8
  · exact absurd h1.1 (by simp [hesc])
  · exact absurd h2.1 (by simp [hesc])
  · exact absurd h3.2.2 hel
  · exact absurd h4.2.2 hel
  · exact absurd h5.2.1 (by simp [hq])
  · exact absurd h6.2 (by simp [closerIs, hq, hcc])
  · exact absurd h7.2.1 (by simp [hw])
  · exact absurd h8.2.2.1 (by simp [hq])
  · rfl

/- ### Reachability invariants -/

/-- Every step lands in one of seven shapes, one per arm of the source
`match` (the two escape-resolution arms and the final echo arm share the
`emit` shape, the two escape-leader arms share `start_escaping`). -/
lemma add_char_cases (t : Tokeniser) (c : Char) :
    t.add_char c = t.emit ((findIn t.escape_pairs c).getD c) ∨
    t.add_char c = t.start_escaping ∨
    (t.add_char c = { t with quote := findIn t.quote_pairs c, in_word := true }
      ∧ (findIn t.quote_pairs c).isSome = true) ∨
    t.add_char c = { t with quote := none, in_word := true } ∨
    t.add_char c = t ∨
    (t.add_char c = { t with in_word := false, vec := t.vec ++ [[]] }
      ∧ t.quote = none) ∨
    t.add_char c = t.emit c := by
  unfold add_char
  split_ifs with h1 h2 h3 h4 h5 h6 h7 h8
  · exact Or.inl (by rw [h1.2]; rfl)
  · exact Or.inl rfl
  · exact Or.inr (Or.inl rfl)
  · exact Or.inr (Or.inl rfl)
  · exact Or.inr (Or.inr (Or.inl ⟨rfl, h5.2.2⟩))
  · exact Or.inr (Or.inr (Or.inr (Or.inl rfl)))
  · exact Or.inr (Or.inr (Or.inr (Or.inr (Or.inl rfl))))
  · exact Or.inr (Or.inr (Or.inr (Or.inr (Or.inr (Or.inl ⟨rfl, h8.2.2.1⟩)))))
  · exact Or.inr (Or.inr (Or.inr (Or.inr (Or.inr (Or.inr rfl)))))

/-- Invariants preserved by every step: an open quotation implies
`in_word`, and the quote field always holds a value from the quote-pair
table. -/
lemma invariant_add_char (t : Tokeniser) (c : Char)
    (hqw : t.quote.isSome = true → t.in_word = true)
    (hqt : ∀ q, t.quote = some q → ∃ k, findIn t.quote_pairs k = some q) :
    ((t.add_char c).quote.isSome = true → (t.add_char c).in_word = true) ∧
    (∀ q, (t.add_char c).quote = some q →
      ∃ k, findIn (t.add_char c).quote_pairs k = some q) := by
  rcases add_char_cases t c with h | h | ⟨h, hs⟩ | h | h | ⟨h, hq0⟩ | h <;>
    rw [h]
  · exact ⟨fun _ => rfl, fun q hq => hqt q hq⟩
  · exact ⟨fun _ => rfl, fun q hq => hqt q hq⟩
  · exact ⟨fun _ => rfl, fun q hq => ⟨c, hq⟩⟩
  · exact ⟨fun h' => by simp at h', fun q hq => by simp at hq⟩
  · exact ⟨hqw, hqt⟩
  · exact ⟨fun h' => by simp [hq0] at h', fun q hq => hqt q hq⟩
  · exact ⟨fun _ => rfl, fun q hq => hqt q hq⟩

lemma invariant_add_iterator (t : Tokeniser) (l : List Char)
    (hqw : t.quote.isSome = true → t.in_word = true)
    (hqt : ∀ q, t.quote = some q → ∃ k, findIn t.quote_pairs k = some q) :
    ((t.add_iterator l).quote.isSome = true → (t.add_iterator l).in_word = true) ∧
    (∀ q, (t.add_iterator l).quote = some q →
      ∃ k, findIn (t.add_iterator l).quote_pairs k = some q) := by
  induction l generalizing t with
  | nil => exact ⟨hqw, hqt⟩
  | cons c cs ih =>
      have h := invariant_add_char t c hqw hqt
      simpa [add_iterator] using ih (t.add_char c) h.1 h.2

lemma new_invariant (qp : List (Char × (Char × QuoteMode)))
    (ep : List (Char × Char)) (el : Option Char) (l : List Char) :
    (((Tokeniser.new qp ep el).add_iterator l).quote.isSome = true →
      ((Tokeniser.new qp ep el).add_iterator l).in_word = true) ∧
    (∀ q, ((Tokeniser.new qp ep el).add_iterator l).quote = some q →
      ∃ k, findIn qp k = some q) := by
  have h := invariant_add_iterator (Tokeniser.new qp ep el) l
    (by simp [Tokeniser.new]) (by simp [Tokeniser.new])
  refine ⟨h.1, fun q hq => ?_⟩
  have hc := (config_add_iterator (Tokeniser.new qp ep el) l).1
  rw [hc] at h
  exact h.2 q hq

/- ### Running the tokeniser over plain (quote-free, leader-free) text -/

lemma into_strings_plain (qp : List (Char × (Char × QuoteMode)))
    (ep : List (Char × Char)) (el : Option Char)
    (ws : List (List Char)) (acc : List Char) :
    Tokeniser.into_strings
        ⟨ws ++ [acc], !acc.isEmpty, none, false, qp, ep, el⟩ =
      .ok (ws ++ if acc.isEmpty then [] else [acc]) := by
  unfold into_strings drop_empty_current_string
  cases acc with
  | nil => simp [List.getLast?_concat, List.dropLast_concat]
  | cons a as => simp [List.getLast?_concat, List.dropLast_concat]

lemma run_plain (qp : List (Char × (Char × QuoteMode)))
    (ep : List (Char × Char)) (el : Option Char) (input : List Char)
    (h : ∀ c ∈ input, findIn qp c = none ∧ el ≠ some c) :
    ∀ (ws : List (List Char)) (acc : List Char),
    Tokeniser.into_strings
        (Tokeniser.add_iterator
          ⟨ws ++ [acc], !acc.isEmpty, none, false, qp, ep, el⟩ input) =
      .ok (ws ++ splitWs acc input) := by
  induction input with
  | nil =>
      intro ws acc
      simpa [add_iterator, splitWs] using into_strings_plain qp ep el ws acc
  | cons c cs ih =>
      intro ws acc
      obtain ⟨hqp, hel⟩ := h c (List.mem_cons_self c cs)
      have h' : ∀ c ∈ cs, findIn qp c = none ∧ el ≠ some c :=
        fun c hc => h c (List.mem_cons_of_mem _ hc)
      have ih' := ih h'
      simp only [add_iterator] at ih' ⊢
      rw [List.foldl_cons]
      by_cases hws : is_whitespace c = true
      · by_cases hacc : acc.isEmpty = true
        · have hstep : Tokeniser.add_char
              ⟨ws ++ [acc], !acc.isEmpty, none, false, qp, ep, el⟩ c =
              ⟨ws ++ [acc], !acc.isEmpty, none, false, qp, ep, el⟩ :=
            add_char_plain_skip _ _ rfl rfl (by simp [hacc]) hws hqp hel
          rw [hstep]
          have hnil : acc = [] := by simpa [List.isEmpty_iff] using hacc
          subst hnil
          rw [ih' ws []]
          simp [splitWs, hws]
        · have hacc' : acc.isEmpty = false := by simpa using hacc
          have hstep : Tokeniser.add_char
              ⟨ws ++ [acc], !acc.isEmpty, none, false, qp, ep, el⟩ c =
              ⟨ws ++ [acc] ++ [[]], false, none, false, qp, ep, el⟩ := by
            rw [add_char_plain_endword _ _ rfl rfl (by simp [hacc']) hws
              hqp hel]
          rw [hstep]
          have this1 := ih' (ws ++ [acc]) []
          simp only [List.isEmpty_nil, Bool.not_true] at this1
          rw [this1]
          simp [splitWs, hws, hacc']
      · have hws' : is_whitespace c = false := by simpa using hws
        have hne : (acc ++ [c]).isEmpty = false := by simp
        have hstep : Tokeniser.add_char
            ⟨ws ++ [acc], !acc.isEmpty, none, false, qp, ep, el⟩ c =
            ⟨ws ++ [acc ++ [c]], true, none, false, qp, ep, el⟩ := by
          rw [add_char_plain_emit _ _ rfl rfl hws' hqp hel]
          unfold emit
          simp [mutLast_append_last]
        rw [hstep]
        have this1 := ih' ws (acc ++ [c])
        rw [hne] at this1
        simp only [Bool.not_false] at this1
        rw [this1]
        simp [splitWs, hws']

end Tokeniser

/- ### The reference splitter: trim-invariance and maximal-substring form -/

lemma splitWs_all_ws (acc : List Char) (b : List Char)
    (hb : ∀ c ∈ b, is_whitespace c = true) :
    splitWs acc b = if acc.isEmpty then [] else [acc] := by
  induction b generalizing acc with
  | nil => rfl
  | cons c cs ih =>
      have hc := hb c (List.mem_cons_self c cs)
      have hb' : ∀ c ∈ cs, is_whitespace c = true :=
        fun c h => hb c (List.mem_cons_of_mem _ h)
      by_cases hacc : acc.isEmpty = true
      · simp [splitWs, hc, hacc, ih [] hb']
      · simp [splitWs, hc, hacc, ih [] hb']

lemma splitWs_append_ws (acc : List Char) (l b : List Char)
    (hb : ∀ c ∈ b, is_whitespace c = true) :
    splitWs acc (l ++ b) = splitWs acc l := by
  induction l generalizing acc with
  | nil =>
      simp only [List.nil_append]
      rw [splitWs_all_ws acc b hb]
      simp [splitWs]
  | cons c cs ih =>
      by_cases hws : is_whitespace c = true <;>
        by_cases hacc : acc.isEmpty = true <;>
        simp [splitWs, hws, hacc, ih]

lemma splitWs_dropWhile (l : List Char) :
    splitWs [] (l.dropWhile is_whitespace) = splitWs [] l := by
  induction l with
  | nil => rfl
  | cons c cs ih =>
      rw [List.dropWhile_cons]
      by_cases hws : is_whitespace c = true
      · rw [if_pos hws, ih]
        simp [splitWs, hws]
      · rw [if_neg hws]

lemma reverse_dropWhile_decomp (m : List Char) :
    m = (m.reverse.dropWhile is_whitespace).reverse ++
      (m.reverse.takeWhile is_whitespace).reverse := by
  conv_lhs =>
    rw [← List.reverse_reverse m,
      ← List.takeWhile_append_dropWhile (p := is_whitespace) (l := m.reverse)]
  rw [List.reverse_append]

lemma trim_decomp (l : List Char) :
    ∃ a b, l = a ++ Tokeniser.trim l ++ b ∧
      (∀ c ∈ a, is_whitespace c = true) ∧
      (∀ c ∈ b, is_whitespace c = true) := by
  refine ⟨l.takeWhile is_whitespace,
    ((l.dropWhile is_whitespace).reverse.takeWhile is_whitespace).reverse,
    ?_, fun c hc => List.mem_takeWhile_imp hc,
    fun c hc => List.mem_takeWhile_imp (List.mem_reverse.mp hc)⟩
  conv_lhs =>
    rw [← List.takeWhile_append_dropWhile (p := is_whitespace) (l := l),
      reverse_dropWhile_decomp (l.dropWhile is_whitespace)]
  rw [List.append_assoc]
  rfl

lemma mem_of_mem_trim {c : Char} {l : List Char}
    (h : c ∈ Tokeniser.trim l) : c ∈ l := by
  obtain ⟨a, b, hl, -, -⟩ := trim_decomp l
  rw [hl]
  simp [h]

lemma splitWs_trim (l : List Char) :
    splitWs [] (Tokeniser.trim l) = splitWs [] l := by
  rw [show Tokeniser.trim l =
    ((l.dropWhile is_whitespace).reverse.dropWhile is_whitespace).reverse
    from rfl]
  rw [← splitWs_dropWhile l]
  conv_rhs => rw [reverse_dropWhile_decomp (l.dropWhile is_whitespace)]
  rw [splitWs_append_ws _ _ _
    (fun c hc => List.mem_takeWhile_imp (List.mem_reverse.mp hc))]

lemma splitWs_eq_filter (l : List Char) : ∀ acc : List Char,
    splitWs acc l =
      ((l.splitOnP is_whitespace).modifyHead (fun w => acc ++ w)).filter
        (fun w => !w.isEmpty) := by
  induction l with
  | nil =>
      intro acc
      by_cases hacc : acc.isEmpty = true
      · simp [splitWs, hacc, List.splitOnP_nil, List.isEmpty_iff.mp hacc]
      · simp [splitWs, hacc, List.splitOnP_nil, List.filter_cons]
  | cons c cs ih =>
      intro acc
      obtain ⟨s0, S, hS⟩ :=
        List.exists_cons_of_ne_nil (List.splitOnP_ne_nil is_whitespace cs)
      by_cases hws : is_whitespace c = true
      · rw [List.splitOnP_cons, if_pos hws]
        by_cases hacc : acc.isEmpty = true
        · have := ih []
          rw [hS] at this ⊢
          simp only [List.modifyHead, List.nil_append] at this
          simp [splitWs, hws, hacc, this, List.filter_cons,
            List.isEmpty_iff.mp hacc]
        · have := ih []
          rw [hS] at this ⊢
          simp only [List.modifyHead, List.nil_append] at this
          simp [splitWs, hws, hacc, this, List.filter_cons]
      · rw [List.splitOnP_cons, if_neg hws]
        have := ih (acc ++ [c])
        rw [hS] at this ⊢
        simp only [List.modifyHead] at this ⊢
        rw [show acc ++ c :: s0 = (acc ++ [c]) ++ s0 by simp]
        rw [← this]
        simp [splitWs, hws]

lemma splitWs_eq_wsWords (l : List Char) : splitWs [] l = wsWords l := by
  rw [splitWs_eq_filter l []]
  obtain ⟨s0, S, hS⟩ :=
    List.exists_cons_of_ne_nil (List.splitOnP_ne_nil is_whitespace l)
  rw [wsWords, hS]
  simp [List.modifyHead]

/- ### Claim theorems -/

/-- C1: for every configuration and every input string none of whose
characters is a key of the quote-pair table or a recognized escape-leader
character (in this revision the escape table of the data model is the
single optional `escape_leader`), driving the string through `add_line`
and finalizing yields `Ok` of exactly the maximal whitespace-free
substrings of the input, never an error. -/
theorem plain_split_of_no_special_chars
    (qp : List (Char × (Char × QuoteMode))) (ep : List (Char × Char))
    (el : Option Char) (input : List Char)
    (h : ∀ c ∈ input, findIn qp c = none ∧ el ≠ some c) :
    ((Tokeniser.new qp ep el).add_line input).into_strings =
      .ok (wsWords input) := by
  have h' : ∀ c ∈ Tokeniser.trim input, findIn qp c = none ∧ el ≠ some c :=
    fun c hc => h c (mem_of_mem_trim hc)
  have hrun := Tokeniser.run_plain qp ep el (Tokeniser.trim input) h' [] []
  rw [Tokeniser.add_line]
  rw [show Tokeniser.new qp ep el =
    ⟨[] ++ [[]], !([] : List Char).isEmpty, none, false, qp, ep, el⟩ from rfl]
  rw [hrun, List.nil_append, splitWs_trim, splitWs_eq_wsWords]

/-- Witness for C1 at the whitespace-split configuration on `a b  c`. -/
theorem plain_split_witness :
    (∀ c ∈ (['a', ' ', 'b', ' ', ' ', 'c'] : List Char),
      findIn ([] : List (Char × (Char × QuoteMode))) c = none ∧
      (none : Option Char) ≠ some c) ∧
    ((Tokeniser.new [] [] none).add_line
        ['a', ' ', 'b', ' ', ' ', 'c']).into_strings =
      .ok (wsWords ['a', ' ', 'b', ' ', ' ', 'c']) :=
  ⟨by decide,
   plain_split_of_no_special_chars [] [] none ['a', ' ', 'b', ' ', ' ', 'c']
     (by decide)⟩

/-- C2: `into_strings` returns `UnmatchedQuote` when `in_word` and a
quotation is open, else `UnfinishedEscape` when escaping, else `Ok` of
the word vector with the trailing accumulator removed exactly when it is
empty; in particular a fresh tokeniser yields the empty sequence. -/
theorem into_strings_finalize_spec :
    (∀ t : Tokeniser,
      t.into_strings =
        if t.in_word = true ∧ t.quote.isSome = true then
          .error .UnmatchedQuote
        else if t.escaping = true then .error .UnfinishedEscape
        else .ok (if t.vec.getLast? = some [] then t.vec.dropLast
                  else t.vec)) ∧
    (∀ qp ep el, (Tokeniser.new qp ep el).into_strings = .ok []) := by
  constructor
  · intro t
    unfold Tokeniser.into_strings
    by_cases h1 : t.in_word = true ∧ t.quote.isSome = true
    · rw [if_pos h1, if_pos h1]
    · rw [if_neg h1, if_neg h1]
      by_cases h2 : t.escaping = true
      · rw [if_pos h2, if_pos h2]
      · rw [if_neg h2, if_neg h2]
        unfold Tokeniser.drop_empty_current_string
        congr 1
        rcases hlast : t.vec.getLast? with _ | w
        · simp [hlast]
        · rcases w with _ | ⟨a, as⟩ <;> simp [hlast]
  · intro qp ep el
    rfl

/-- C3 counterexample: with the shell-style configuration, the input
consisting of a double quote, `a` and a trailing backslash ends with
`escaping = true`, yet finalizing does not yield `UnfinishedEscape`
(the open quotation is reported first). -/
theorem trailing_escape_open_quote_cex :
    (shell_style_tokeniser.add_iterator ['\"', 'a', '\\']).escaping = true ∧
    (shell_style_tokeniser.add_iterator ['\"', 'a', '\\']).into_strings ≠
      .error .UnfinishedEscape := by
  constructor
  · rfl
  · intro h
    rw [show (shell_style_tokeniser.add_iterator
        ['\"', 'a', '\\']).into_strings = .error .UnmatchedQuote from rfl] at h
    simp at h

/-- C3 (amended): for every configuration and input, if processing ends
with a pending escape then finalizing yields `UnfinishedEscape` provided
no quotation is open; if a quotation is open, the `UnmatchedQuote` check
takes precedence and that error is returned instead. -/
theorem trailing_escape_finalize
    (qp : List (Char × (Char × QuoteMode))) (ep : List (Char × Char))
    (el : Option Char) (input : List Char)
    (hesc : ((Tokeniser.new qp ep el).add_iterator input).escaping = true) :
    (((Tokeniser.new qp ep el).add_iterator input).quote = none →
      ((Tokeniser.new qp ep el).add_iterator input).into_strings =
        .error .UnfinishedEscape) ∧
    (∀ q, ((Tokeniser.new qp ep el).add_iterator input).quote = some q →
      ((Tokeniser.new qp ep el).add_iterator input).into_strings =
        .error .UnmatchedQuote) := by
  constructor
  · intro hq
    unfold Tokeniser.into_strings
    rw [if_neg (by simp [hq]), if_pos hesc]
  · intro q hq
    have hin := (Tokeniser.new_invariant qp ep el input).1 (by simp [hq])
    unfold Tokeniser.into_strings
    rw [if_pos ⟨hin, by simp [hq]⟩]

/-- Witness for C3's amended theorem: shell-style input `a\` ends with a
pending escape and no open quote, and finalizes to `UnfinishedEscape`. -/
theorem trailing_escape_finalize_witness :
    ((Tokeniser.new [('\"', ('\"', QuoteMode.ParseEscapes)),
        ('\'', ('\'', QuoteMode.IgnoreEscapes))] [] (some '\\')).add_iterator
      ['a', '\\']).into_strings = .error .UnfinishedEscape :=
  (trailing_escape_finalize _ _ _ ['a', '\\'] (by decide)).1 (by decide)

/-- C4: for every configuration and every input whose processing ends
with a quotation still open, finalizing yields `UnmatchedQuote`,
regardless of what precedes the opening quote. -/
theorem open_quote_always_unmatched
    (qp : List (Char × (Char × QuoteMode))) (ep : List (Char × Char))
    (el : Option Char) (input : List Char)
    (h : ((Tokeniser.new qp ep el).add_iterator input).quote.isSome = true) :
    ((Tokeniser.new qp ep el).add_iterator input).into_strings =
      .error .UnmatchedQuote := by
  have hin := (Tokeniser.new_invariant qp ep el input).1 h
  unfold Tokeniser.into_strings
  rw [if_pos ⟨hin, h⟩]

/-- Witness for C4: the shell-style run over `"abcde` ends in an open
quote and finalizes to `UnmatchedQuote`. -/
theorem open_quote_always_unmatched_witness :
    ((Tokeniser.new [('\"', ('\"', QuoteMode.ParseEscapes)),
        ('\'', ('\'', QuoteMode.IgnoreEscapes))] [] (some '\\')).add_iterator
      ['\"', 'a', 'b', 'c', 'd', 'e']).into_strings =
      .error .UnmatchedQuote :=
  open_quote_always_unmatched _ _ _ ['\"', 'a', 'b', 'c', 'd', 'e']
    (by decide)

/-- C5: in a state with a pending escape whose (non-empty) escape table
has no entry for the next character `c`, the step treats `c` as ordinary:
the leader is dropped, `c` itself is appended, `in_word` is set,
`escaping` is cleared, and no `UnfinishedEscape` error can arise at
finalize. -/
theorem unknown_escape_degrades_to_literal (t : Tokeniser) (c : Char)
    (hesc : t.escaping = true) (hne : t.escape_pairs ≠ [])
    (hmiss : findIn t.escape_pairs c = none) :
    t.add_char c = t.emit c ∧
    (t.add_char c).escaping = false ∧
    (t.add_char c).in_word = true ∧
    (t.add_char c).vec = mutLast (fun s => s ++ [c]) t.vec ∧
    (t.add_char c).into_strings ≠ .error .UnfinishedEscape := by
  have h := Tokeniser.add_char_of_escaping t c hesc
  rw [hmiss] at h
  simp only [Option.getD_none] at h
  refine ⟨h, by rw [h]; rfl, by rw [h]; rfl, by rw [h]; rfl, ?_⟩
  rw [h]
  unfold Tokeniser.into_strings
  by_cases hq : (t.emit c).in_word = true ∧ (t.emit c).quote.isSome = true
  · rw [if_pos hq]
    simp
  · rw [if_neg hq, if_neg (by simp [Tokeniser.emit])]
    simp

/-- Witness for C5: after a backslash under the C-style escape map, the
unknown escape `\z` emits a literal `z`. -/
theorem unknown_escape_witness :
    ((Tokeniser.new [] c_escape_pairs (some '\\')).add_char '\\').escaping
        = true ∧
    findIn c_escape_pairs 'z' = none ∧
    (((Tokeniser.new [] c_escape_pairs (some '\\')).add_char '\\').add_char
        'z') =
      ((Tokeniser.new [] c_escape_pairs (some '\\')).add_char '\\').emit
        'z' :=
  ⟨by decide, by decide,
   (unknown_escape_degrades_to_literal _ 'z' (by decide) (by decide)
     (by decide)).1⟩

/-- C8: under the shell-style configuration, `'abc\nde'` tokenizes to the
single word `abc\nde` (backslash kept verbatim inside the
escape-ignoring single quotes), while `"abc\nde"` tokenizes to the single
word `abcnde` (the shell-style literal escape turns `\n` into `n`). -/
theorem shell_style_quote_escape_examples :
    (shell_style_tokeniser.add_line
        ['\'', 'a', 'b', 'c', '\\', 'n', 'd', 'e', '\'']).into_strings =
      .ok [['a', 'b', 'c', '\\', 'n', 'd', 'e']] ∧
    (shell_style_tokeniser.add_line
        ['\"', 'a', 'b', 'c', '\\', 'n', 'd', 'e', '\"']).into_strings =
      .ok [['a', 'b', 'c', 'n', 'd', 'e']] := by
  exact ⟨rfl, rfl⟩

/-- C9: escape-scheme resolution is a pure function: the literal scheme
maps every character to itself, and a table scheme returns the mapped
substitute exactly for the keys of its (duplicate-free) map and `none`
for every other character. -/
theorem escape_resolve_spec (m : List (Char × Char)) (c : Char) (s : Char)
    (hnd : (m.map Prod.fst).Nodup) :
    SimpleEscapeScheme.escape .LiteralEscape c = some c ∧
    SimpleEscapeScheme.escape (.MapEscape m) c = findIn m c ∧
    (SimpleEscapeScheme.escape (.MapEscape m) c = some s ↔ (c, s) ∈ m) ∧
    (SimpleEscapeScheme.escape (.MapEscape m) c = none ↔
      c ∉ m.map Prod.fst) := by
  refine ⟨rfl, rfl, ?_, ?_⟩
  · simpa [SimpleEscapeScheme.escape] using
      findIn_eq_some_iff_of_nodup m hnd c s
  · simpa [SimpleEscapeScheme.escape] using findIn_eq_none_iff m c

/-- Witness for C9 at the C-style escape map and the key `n`. -/
theorem escape_resolve_witness :
    (c_escape_pairs.map Prod.fst).Nodup ∧
    (SimpleEscapeScheme.escape (.MapEscape c_escape_pairs) 'n' = some '\n' ↔
      ('n', '\n') ∈ c_escape_pairs) :=
  ⟨by decide, (escape_resolve_spec c_escape_pairs 'n' '\n' (by decide)).2.2.1⟩

/-- C10: in every state reachable from `new`, an open quotation implies
`in_word = true`; consequently the `in_word` conjunct of the
`UnmatchedQuote` test is redundant and every session ending with an open
quotation is classified `UnmatchedQuote`. -/
theorem open_quote_invariant
    (qp : List (Char × (Char × QuoteMode))) (ep : List (Char × Char))
    (el : Option Char) (input : List Char)
    (h : ((Tokeniser.new qp ep el).add_iterator input).quote.isSome = true) :
    ((Tokeniser.new qp ep el).add_iterator input).in_word = true ∧
    ((Tokeniser.new qp ep el).add_iterator input).into_strings =
      .error .UnmatchedQuote := by
  have hin := (Tokeniser.new_invariant qp ep el input).1 h
  refine ⟨hin, ?_⟩
  unfold Tokeniser.into_strings
  rw [if_pos ⟨hin, h⟩]

/-- Witness for C10: a single-quoted unterminated word has `in_word` set
and finalizes to `UnmatchedQuote`. -/
theorem open_quote_invariant_witness :
    ((Tokeniser.new [('\"', ('\"', QuoteMode.ParseEscapes)),
        ('\'', ('\'', QuoteMode.IgnoreEscapes))] [] (some '\\')).add_iterator
      ['\'', 'x']).in_word = true :=
  (open_quote_invariant _ _ _ ['\'', 'x'] (by decide)).1

/-- C6 counterexample: with a quote pair whose closing character is a
whitespace character, a whitespace character inside an open quotation is
consumed as the closer and is *not* appended to the accumulator, against
the claim's second consequence. -/
theorem step_precedence_cex :
    ((Tokeniser.new [('(', (' ', QuoteMode.IgnoreEscapes))] []
        none).add_iterator ['(', 'a']).quote.isSome = true ∧
    is_whitespace ' ' = true ∧
    (((Tokeniser.new [('(', (' ', QuoteMode.IgnoreEscapes))] []
        none).add_iterator ['(', 'a']).add_char ' ').vec ≠
      mutLast (fun s => s ++ [' '])
        ((Tokeniser.new [('(', (' ', QuoteMode.IgnoreEscapes))] []
          none).add_iterator ['(', 'a']).vec := by
  decide

/-- C6 (amended): the arms of `add_char` apply in the source's fixed
precedence order, with these consequences.  With a pending escape the
next character never opens or closes a quotation and its escape
resolution is appended — the character itself when the lookup misses.
With an open quotation a whitespace character never ends the current word
(the word vector's length is unchanged and `in_word` stays set), and the
character is appended literally provided it is not the quote's closing
character, not a recognized escape leader, and no escape is pending. -/
theorem step_precedence (t : Tokeniser) (c : Char) :
    (t.escaping = true →
      (t.add_char c).quote = t.quote ∧
      (t.add_char c).vec =
        mutLast (fun s => s ++ [(findIn t.escape_pairs c).getD c]) t.vec ∧
      (findIn t.escape_pairs c = none →
        (t.add_char c).vec = mutLast (fun s => s ++ [c]) t.vec)) ∧
    (∀ cc m, t.quote = some (cc, m) → is_whitespace c = true →
      (t.add_char c).vec.length = t.vec.length ∧
      (t.in_word = true → (t.add_char c).in_word = true) ∧
      (t.escaping = false → t.in_word = true → cc ≠ c →
        t.escape_leader ≠ some c →
        t.add_char c = t.emit c)) := by
  constructor
  · intro hesc
    have h := Tokeniser.add_char_of_escaping t c hesc
    refine ⟨by rw [h]; rfl, by rw [h]; rfl, ?_⟩
    intro hmiss
    rw [h, hmiss]
    rfl
  · intro cc m hq hws
    refine ⟨?_, ?_, fun hesc hw hcc hel =>
      Tokeniser.add_char_quoted_emit t c cc m hesc hq hw hcc hel⟩
    · rcases Tokeniser.add_char_cases t c with
        h | h | ⟨h, _⟩ | h | h | ⟨h, hq0⟩ | h
      · exact (congrArg (fun s => s.vec.length) h).trans (mutLast_length _ _)
      · exact congrArg (fun s => s.vec.length) h
      · exact congrArg (fun s => s.vec.length) h
      · exact congrArg (fun s => s.vec.length) h
      · exact congrArg (fun s => s.vec.length) h
      · rw [hq0] at hq
        simp at hq
      · exact (congrArg (fun s => s.vec.length) h).trans (mutLast_length _ _)
    · intro hw
      rcases Tokeniser.add_char_cases t c with
        h | h | ⟨h, _⟩ | h | h | ⟨h, hq0⟩ | h
      · exact congrArg (fun s => s.in_word) h
      · exact congrArg (fun s => s.in_word) h
      · exact congrArg (fun s => s.in_word) h
      · exact congrArg (fun s => s.in_word) h
      · exact (congrArg (fun s => s.in_word) h).trans hw
      · rw [hq0] at hq
        simp at hq
      · exact congrArg (fun s => s.in_word) h

/-- Witness for C6's amended theorem: inside an open shell-style double
quote, a space is emitted literally. -/
theorem step_precedence_witness :
    ((shell_style_tokeniser.add_iterator ['\"', 'a']).add_char ' ') =
      (shell_style_tokeniser.add_iterator ['\"', 'a']).emit ' ' :=
  ((step_precedence (shell_style_tokeniser.add_iterator ['\"', 'a']) ' ').2
    '\"' QuoteMode.ParseEscapes (by decide) (by decide)).2.2 (by decide)
    (by decide) (by decide) (by decide)

/- ### Whitespace runs at the edges of a line (claim C7) -/

lemma add_iterator_ws_idle (t : Tokeniser) (b : List Char)
    (hb : ∀ c ∈ b, is_whitespace c = true)
    (hq : t.quote = none) (hesc : t.escaping = false)
    (hw : t.in_word = false)
    (hcfg : ∀ c, is_whitespace c = true →
      findIn t.quote_pairs c = none ∧ t.escape_leader ≠ some c) :
    t.add_iterator b = t := by
  induction b with
  | nil => rfl
  | cons c cs ih =>
      have hc := hb c (List.mem_cons_self c cs)
      obtain ⟨h1, h2⟩ := hcfg c hc
      have hstep := Tokeniser.add_char_plain_skip t c hesc hq hw hc h1 h2
      simp only [Tokeniser.add_iterator, List.foldl_cons]
      rw [hstep]
      exact ih (fun c h => hb c (List.mem_cons_of_mem _ h))

lemma add_iterator_ws_quoted (t : Tokeniser) (b : List Char) (cc : Char)
    (m : QuoteMode) (hb : ∀ c ∈ b, is_whitespace c = true)
    (hq : t.quote = some (cc, m)) (hcc : is_whitespace cc = false)
    (hw : t.in_word = true) (hesc : t.escaping = false)
    (hel : ∀ c, is_whitespace c = true → t.escape_leader ≠ some c) :
    (t.add_iterator b).quote = some (cc, m) ∧
    (t.add_iterator b).in_word = true := by
  induction b generalizing t with
  | nil => exact ⟨hq, hw⟩
  | cons c cs ih =>
      have hc := hb c (List.mem_cons_self c cs)
      have hccne : cc ≠ c := by
        rintro rfl
        rw [hc] at hcc
        cases hcc
      have hstep := Tokeniser.add_char_quoted_emit t c cc m hesc hq hw hccne
        (hel c hc)
      simp only [Tokeniser.add_iterator, List.foldl_cons]
      rw [hstep]
      exact ih (t.emit c) (fun c h => hb c (List.mem_cons_of_mem _ h))
        hq rfl rfl hel

/-- In the shell-style configuration, no whitespace character is a
quote-opener key or the escape leader. -/
lemma shell_ws_cfg : ∀ c : Char, is_whitespace c = true →
    findIn [('\"', ('\"', QuoteMode.ParseEscapes)),
      ('\'', ('\'', QuoteMode.IgnoreEscapes))] c = none ∧
    (some '\\' : Option Char) ≠ some c := by
  intro c hc
  constructor
  · have h1 : ('\"' : Char) ≠ c := by
      rintro rfl
      exact absurd hc (by decide)
    have h2 : ('\'' : Char) ≠ c := by
      rintro rfl
      exact absurd hc (by decide)
    simp [findIn, h1, h2]
  · intro h
    injection h with h'
    rw [← h'] at hc
    exact absurd hc (by decide)

/-- In the shell-style configuration, no quote pair closes on a
whitespace character. -/
lemma shell_ws_close : ∀ k cc m,
    findIn [('\"', ('\"', QuoteMode.ParseEscapes)),
      ('\'', ('\'', QuoteMode.IgnoreEscapes))] k = some (cc, m) →
    is_whitespace cc = false := by
  intro k cc m h
  simp only [findIn] at h
  split_ifs at h
  · injection h with h'
    simp only [Prod.mk.injEq] at h'
    rw [← h'.1]
    decide
  · injection h with h'
    simp only [Prod.mk.injEq] at h'
    rw [← h'.1]
    decide

/-- C7 counterexample: for the shell-style configuration on the line
`a\ ` (letter, backslash, space), trimming changes the result: the
trimmed run ends in a pending escape and fails, while the untrimmed run
resolves the escape with the trailing space and succeeds. -/
theorem add_line_trim_cex :
    (shell_style_tokeniser.add_line ['a', '\\', ' ']).into_strings =
      .error .UnfinishedEscape ∧
    (shell_style_tokeniser.add_iterator ['a', '\\', ' ']).into_strings =
      .ok [['a', ' ']] ∧
    (.error .UnfinishedEscape : Except Error (List (List Char))) ≠
      .ok [['a', ' ']] :=
  ⟨rfl, rfl, fun h => Except.noConfusion h⟩

/-- C7 (amended): trimming does not change the tokenising result for a
configuration in which whitespace characters are never quote-opener keys,
never closing characters of a quote pair, and never the escape leader,
provided the trimmed run ends with no pending escape and not inside an
unquoted word whose accumulator is empty.  (Otherwise the results can
differ: a pending escape absorbs trailing whitespace, and a trailing
empty quoted word is dropped only when the line ends there.) -/
theorem add_line_trim_equivalence
    (qp : List (Char × (Char × QuoteMode))) (ep : List (Char × Char))
    (el : Option Char) (line : List Char)
    (hwcfg : ∀ c, is_whitespace c = true →
      findIn qp c = none ∧ el ≠ some c)
    (hwclose : ∀ k cc m, findIn qp k = some (cc, m) →
      is_whitespace cc = false)
    (hesc : ((Tokeniser.new qp ep el).add_line line).escaping = false)
    (hacc : ¬(((Tokeniser.new qp ep el).add_line line).quote = none ∧
      ((Tokeniser.new qp ep el).add_line line).in_word = true ∧
      ((Tokeniser.new qp ep el).add_line line).vec.getLast? = some [])) :
    ((Tokeniser.new qp ep el).add_line line).into_strings =
      ((Tokeniser.new qp ep el).add_iterator line).into_strings := by
  obtain ⟨a, b, hl, ha, hb⟩ := trim_decomp line
  have hlead : (Tokeniser.new qp ep el).add_iterator a =
      Tokeniser.new qp ep el :=
    add_iterator_ws_idle _ a ha rfl rfl rfl (fun c hc => hwcfg c hc)
  have hsplit : (Tokeniser.new qp ep el).add_iterator line =
      (((Tokeniser.new qp ep el).add_iterator a).add_iterator
        (Tokeniser.trim line)).add_iterator b := by
    conv_lhs => rw [hl]
    simp only [Tokeniser.add_iterator, List.foldl_append]
  rw [Tokeniser.add_line] at hesc hacc ⊢
  rw [hsplit, hlead]
  set t := (Tokeniser.new qp ep el).add_iterator (Tokeniser.trim line)
    with ht
  have hcfgt := Tokeniser.config_add_iterator (Tokeniser.new qp ep el)
    (Tokeniser.trim line)
  have hqp : t.quote_pairs = qp := hcfgt.1
  have hel' : t.escape_leader = el := hcfgt.2.2
  have hwcfg_t : ∀ c, is_whitespace c = true →
      findIn t.quote_pairs c = none ∧ t.escape_leader ≠ some c := by
    intro c hc
    rw [hqp, hel']
    exact hwcfg c hc
  rcases hquote : t.quote with _ | ⟨cc, m⟩
  · by_cases hword : t.in_word = true
    · have hlast : t.vec.getLast? ≠ some [] :=
        fun h => hacc ⟨hquote, hword, h⟩
      have hcond : (t.vec.getLast?.map List.isEmpty).getD false = false := by
        rcases hg : t.vec.getLast? with _ | w
        · rfl
        · rcases w with _ | ⟨x, xs⟩
          · exact absurd hg hlast
          · rfl
      have hL : t.into_strings = .ok t.vec := by
        unfold Tokeniser.into_strings Tokeniser.drop_empty_current_string
        rw [if_neg (by simp [hquote]), if_neg (by simp [hesc]), hcond]
        simp
      cases b with
      | nil => rfl
      | cons c cs =>
          have hc := hb c (List.mem_cons_self c cs)
          obtain ⟨h1, h2⟩ := hwcfg_t c hc
          have hstep : t.add_char c =
              { t with in_word := false, vec := t.vec ++ [[]] } :=
            Tokeniser.add_char_plain_endword t c hesc hquote hword hc h1 h2
          have hrest :
              Tokeniser.add_iterator { t with in_word := false, vec := t.vec ++ [[]] } cs =
              { t with in_word := false, vec := t.vec ++ [[]] } :=
            add_iterator_ws_idle _ cs
              (fun c h => hb c (List.mem_cons_of_mem _ h))
              hquote hesc rfl (fun c hc => hwcfg_t c hc)
          have hR :
              Tokeniser.into_strings { t with in_word := false, vec := t.vec ++ [[]] } =
              .ok t.vec := by
            unfold Tokeniser.into_strings Tokeniser.drop_empty_current_string
            rw [if_neg (by simp), if_neg (by simp [hesc])]
            simp [List.getLast?_concat, List.dropLast_concat]
          simp only [Tokeniser.add_iterator, List.foldl_cons]
          rw [hstep]
          simp only [Tokeniser.add_iterator] at hrest
          rw [hrest, hL, hR]
    · have hword' : t.in_word = false := by simpa using hword
      rw [add_iterator_ws_idle t b hb hquote hesc hword'
        (fun c hc => hwcfg_t c hc)]
  · have hin : t.in_word = true :=
      (Tokeniser.new_invariant qp ep el (Tokeniser.trim line)).1
        (by rw [← ht] at *; simp [hquote])
    obtain ⟨k, hk⟩ :=
      (Tokeniser.new_invariant qp ep el (Tokeniser.trim line)).2 (cc, m)
        (by rw [← ht] at *; exact hquote)
    have hccws : is_whitespace cc = false := hwclose k cc m hk
    have hquoted := add_iterator_ws_quoted t b cc m hb hquote hccws hin hesc
      (fun c hc => by rw [hel']; exact (hwcfg c hc).2)
    have hR : (t.add_iterator b).into_strings = .error .UnmatchedQuote := by
      unfold Tokeniser.into_strings
      rw [if_pos ⟨hquoted.2, by simp [hquoted.1]⟩]
    have hL : t.into_strings = .error .UnmatchedQuote := by
      unfold Tokeniser.into_strings
      rw [if_pos ⟨hin, by simp [hquote]⟩]
    rw [hL, hR]

/-- Witness for C7's amended theorem: shell-style configuration on the
line `a ` (letter then trailing space). -/
theorem add_line_trim_witness :
    ((Tokeniser.new [('\"', ('\"', QuoteMode.ParseEscapes)),
        ('\'', ('\'', QuoteMode.IgnoreEscapes))] []
        (some '\\')).add_line ['a', ' ']).into_strings =
      ((Tokeniser.new [('\"', ('\"', QuoteMode.ParseEscapes)),
        ('\'', ('\'', QuoteMode.IgnoreEscapes))] []
        (some '\\')).add_iterator ['a', ' ']).into_strings :=
  add_line_trim_equivalence _ _ _ ['a', ' '] shell_ws_cfg shell_ws_close
    (by decide) (by decide)

end Russet
